import Mathlib

/-!
Verification of the tabular predictive-modeling engine of the
Diamond-Auction-Intelligence web application.

The numeric routines of the two dataset modules
(web/lib/server/usDiamonds.ts and web/lib/server/syntheticAuction.ts)
and the analysis routes (surface, shap, optimize) are shallowly embedded
below.  JavaScript numbers are modelled by exact rationals; the two
transcendental library calls (Math.exp inside the stable sigmoid and
Math.sqrt inside the standard-deviation helper) are modelled by an
abstract function parameter, respectively by Real.sqrt over the reals.
Non-finite numeric CSV cells (NaN after Number coercion) are modelled by
Option: none stands for a non-finite value.  Unseeded randomness
(Math.random in the optimizer and the Fisher-Yates column shuffle) is
modelled by an oracle parameter supplying the drawn values, so every
theorem below holds for every possible random stream.
-/

/-! ## Metrics (syntheticAuction.ts priceMetrics / usDiamonds.ts r2Mae) -/

/-- Embeds the mean helper of both dataset modules:
arr.reduce((a, b) => a + b, 0) / Math.max(arr.length, 1). -/
def meanQ (arr : List ℚ) : ℚ :=
  arr.foldl (fun a b => a + b) 0 / (max arr.length 1 : ℕ)

/-- Embeds r2Mae (usDiamonds.ts) and priceMetrics (syntheticAuction.ts):
a single index loop accumulating ssRes, ssTot and the absolute-error sum;
r2 is 1 - ssRes/ssTot guarded to 0 when ssTot is not positive, and mae is
the accumulated absolute error divided by max(length, 1).  Out-of-range
reads of yPred are modelled by getD (the embedded claims only use equal
lengths). -/
def r2Mae (yTrue yPred : List ℚ) : ℚ × ℚ :=
  let mu := meanQ yTrue
  let ssRes := ((List.range yTrue.length).map
    (fun i => (yTrue.getD i 0 - yPred.getD i 0) * (yTrue.getD i 0 - yPred.getD i 0))).sum
  let ssTot := ((List.range yTrue.length).map
    (fun i => (yTrue.getD i 0 - mu) * (yTrue.getD i 0 - mu))).sum
  let mae := ((List.range yTrue.length).map
    (fun i => |yTrue.getD i 0 - yPred.getD i 0|)).sum
  (if 0 < ssTot then 1 - ssRes / ssTot else 0, mae / (max yTrue.length 1 : ℕ))

/-! ## syntheticAuction.ts prediction helpers -/

/-- Embeds clamp01 from syntheticAuction.ts. -/
def clamp01 (x : ℚ) : ℚ :=
  if x < 0 then 0 else if 1 < x then 1 else x

/-- Embeds the numerically stable sigmoid of syntheticAuction.ts; the
Math.exp library call is modelled by the abstract parameter e. -/
def sigmoid (e : ℚ → ℚ) (z : ℚ) : ℚ :=
  if 0 ≤ z then 1 / (1 + e (-z)) else e z / (1 + e z)

/-- Per-numeric-field statistics record (the numericMeans / numericStds
records of a syntheticAuction.ts Model). -/
structure NumStats where
  carat : ℚ
  viewings : ℚ
  price_index : ℚ
deriving DecidableEq

/-- A trained linear model of syntheticAuction.ts (type Model). -/
structure SaleModel where
  features : List String
  beta : List ℚ
  numericMeans : NumStats
  numericStds : NumStats
  colorLevels : List String
  clarityLevels : List String
deriving DecidableEq

/-- An inference-time input record for the synthetic-auction models. -/
structure SaleInput where
  carat : ℚ
  viewings : ℚ
  price_index : ℚ
  color : String
  clarity : String
deriving DecidableEq

/-- Embeds buildFeatureVector of syntheticAuction.ts: intercept, the three
standardized numeric fields, then one-hot flags over the color and
clarity vocabularies. -/
def buildFeatureVector (input : SaleInput) (model : SaleModel) : List ℚ :=
  1 ::
  (input.carat - model.numericMeans.carat) / model.numericStds.carat ::
  (input.viewings - model.numericMeans.viewings) / model.numericStds.viewings ::
  (input.price_index - model.numericMeans.price_index) / model.numericStds.price_index ::
  (model.colorLevels.map (fun c => if input.color = c then (1 : ℚ) else 0) ++
   model.clarityLevels.map (fun c => if input.clarity = c then (1 : ℚ) else 0))

/-- Embeds matVecMul([x], beta)[0] on dynamic arrays: the dot product over
the indices of the row, an out-of-range read of the coefficient vector
contributing 0. -/
def dotFV (x beta : List ℚ) : ℚ :=
  ((List.range x.length).map (fun j => x.getD j 0 * beta.getD j 0)).sum

/-- Embeds predictPrice of syntheticAuction.ts. -/
def predictPrice (model : SaleModel) (input : SaleInput) : ℚ :=
  dotFV (buildFeatureVector input model) model.beta

/-- Embeds predictSaleProba of syntheticAuction.ts: the raw linear score
is passed through the stable sigmoid and clamped to the unit interval.
The parameter e models Math.exp. -/
def predictSaleProba (e : ℚ → ℚ) (model : SaleModel) (input : SaleInput) : ℚ :=
  clamp01 (sigmoid e (dotFV (buildFeatureVector input model) model.beta))

/-! ## Response-surface route (web/app/surface/route.ts) -/

/-- A per-feature trained range (the min/max records of a Trained value). -/
structure QRange where
  min : ℚ
  max : ℚ
deriving DecidableEq

/-- The trained numeric-feature ranges of the synthetic-auction dataset. -/
structure AuctionRanges where
  carat : QRange
  viewings : QRange
  price_index : QRange
deriving DecidableEq

/-- Embeds the ranges record lookup ranges[varX] of the surface route. -/
def rangesLookup (t : AuctionRanges) (v : String) : Option QRange :=
  if v = "carat" then some t.carat
  else if v = "viewings" then some t.viewings
  else if v = "price_index" then some t.price_index
  else none

/-- Embeds linspace of surface/route.ts. -/
def linspace (lo hi : ℚ) (n : ℕ) : List ℚ :=
  if n ≤ 1 then [lo]
  else (List.range n).map (fun i : ℕ => lo + (hi - lo) / ((n : ℚ) - 1) * (i : ℚ))

/-- Embeds the dynamic-key assignment inp[v] = val for the three numeric
feature names (only reached for validated names in the route). -/
def setVar (inp : SaleInput) (v : String) (val : ℚ) : SaleInput :=
  if v = "carat" then { inp with carat := val }
  else if v = "viewings" then { inp with viewings := val }
  else if v = "price_index" then { inp with price_index := val }
  else inp

/-- Embeds the metric ternary of the surface route: Final Price, Sale
Probability, and otherwise the expected-revenue product. -/
def metricOf (metric : String) (predPrice predProb : ℚ) : ℚ :=
  if metric = "Final Price" then predPrice
  else if metric = "Sale Probability" then predProb
  else predPrice * predProb

/-- The three same-shaped output grids of the surface route. -/
structure SurfaceGrids where
  x_grid : List (List ℚ)
  y_grid : List (List ℚ)
  z_values : List (List ℚ)

/-- Embeds the body of the surface POST handler after dataset dispatch:
variable validation against the trained ranges, resolution clamping,
linspace grid axes, midpoint typical record, and the double loop pushing
x_grid, y_grid and z_values row by row.  none models the 400 invalid-
variables response.  The requested point count is modelled as an integer
and Math.exp by the parameter e. -/
def surfacePOST (e : ℚ → ℚ) (t : AuctionRanges) (priceModel saleModel : SaleModel)
    (varX varY metric : String) (nPoints : ℤ) (fixedColor fixedClarity : String) :
    Option SurfaceGrids :=
  match rangesLookup t varX, rangesLookup t varY with
  | some rx, some ry =>
    let r := (max 10 (min 50 nPoints)).toNat
    let xs := linspace rx.min rx.max r
    let ys := linspace ry.min ry.max r
    let typical : SaleInput :=
      { carat := (t.carat.min + t.carat.max) / 2
        viewings := (t.viewings.min + t.viewings.max) / 2
        price_index := (t.price_index.min + t.price_index.max) / 2
        color := fixedColor
        clarity := fixedClarity }
    some
      { x_grid := ys.map (fun _ => xs.map (fun xv => xv))
        y_grid := ys.map (fun yv => xs.map (fun _ => yv))
        z_values := ys.map (fun yv => xs.map (fun xv =>
          let inp := setVar (setVar typical varX xv) varY yv
          metricOf metric (predictPrice priceModel inp)
            (predictSaleProba e saleModel inp))) }
  | _, _ => none

/-! ## Stochastic optimizer (the optimize POST route, synthetic branch) -/

/-- One random trial: the three randBetween draws of the optimizer loop. -/
structure Trial where
  carat : ℚ
  viewings : ℚ
  price_index : ℚ
deriving DecidableEq

/-- The best record retained by the optimizer loop. -/
structure OptCandidate where
  carat : ℚ
  viewings : ℚ
  price_index : ℚ
  color : String
  clarity : String
  pred_price : ℚ
  pred_prob : ℚ
  objective_score : Option ℚ
deriving DecidableEq

/-- The running state of the optimizer loop; none in bestScore models the
initial -Infinity (no finite score seen yet). -/
structure OptState where
  best : Option OptCandidate
  bestScore : Option ℚ
deriving DecidableEq

/-- score > bestScore with none modelling -Infinity. -/
def scoreGt (a b : Option ℚ) : Bool :=
  match a, b with
  | none, _ => false
  | some _, none => true
  | some a, some b => decide (b < a)

/-- The prediction input assembled from a drawn trial and the fixed
categorical levels inside the optimizer loop. -/
def trialInput (tr : Trial) (fixedColor fixedClarity : String) : SaleInput :=
  { carat := tr.carat, viewings := tr.viewings, price_index := tr.price_index
    color := fixedColor, clarity := fixedClarity }

/-- Embeds one iteration of the synthetic optimizer loop: predict price
and sale probability at the drawn point, apply the objective policy
(max_price skips constraint-violating trials via continue; an
unrecognized objective leaves score at -Infinity), and keep the
best-scoring candidate. -/
def optStep (pp ps : SaleInput → ℚ) (objective : String)
    (minProb targetPrice targetProb : ℚ) (fixedColor fixedClarity : String)
    (st : OptState) (tr : Trial) : OptState :=
  let inp : SaleInput := trialInput tr fixedColor fixedClarity
  let pred_price := pp inp
  let pred_prob := ps inp
  if objective = "max_price" ∧ pred_prob < minProb then st
  else
    let score : Option ℚ :=
      if objective = "max_price" then some pred_price
      else if objective = "max_prob" then some pred_prob
      else if objective = "target" then
        some (-(|pred_price - targetPrice| / max targetPrice 1 + |pred_prob - targetProb|))
      else none
    if scoreGt score st.bestScore then
      { best := some
          { carat := tr.carat, viewings := tr.viewings, price_index := tr.price_index
            color := fixedColor, clarity := fixedClarity
            pred_price := pred_price, pred_prob := pred_prob, objective_score := score }
        bestScore := score }
    else st

/-- Embeds the synthetic branch of the optimize POST handler: the sample
count is clamped to [50, 5000], the loop folds optStep over the drawn
trials (the unseeded Math.random draws are modelled by the oracle
sample), and the response is the retained best candidate — none models
the structured no-feasible-solution response. -/
def optimizeSynthetic (pp ps : SaleInput → ℚ) (objective : String) (nSamples : ℤ)
    (minProb targetPrice targetProb : ℚ) (fixedColor fixedClarity : String)
    (sample : ℕ → Trial) : Option OptCandidate :=
  let n := (max 50 (min 5000 nSamples)).toNat
  (((List.range n).map sample).foldl
    (optStep pp ps objective minProb targetPrice targetProb fixedColor fixedClarity)
    { best := none, bestScore := none }).best

/-! ## Model-name parsing (web/lib/server/datasetRegistry.ts) -/

/-- The two model kinds of the US-diamonds dataset. -/
inductive USDModelName where
  | Ridge
  | RandomForest
deriving DecidableEq

/-- The whitespace class of the regular expression /random\s*forest/i
(the common JavaScript \s characters). -/
def isJsSpace (c : Char) : Bool :=
  c = ' ' || c = '\t' || c = '\n' || c = '\r' || c = '\x0b' || c = '\x0c'

/-- Case-insensitive literal match: strips the given lowercase pattern
from the front of the input, if present. -/
def stripCI : List Char → List Char → Option (List Char)
  | [], rest => some rest
  | _ :: _, [] => none
  | p :: ps, c :: cs => if c.toLower = p then stripCI ps cs else none

/-- Does /random\s*forest/i match at the start of the character list? -/
def rfMatchAt (cs : List Char) : Bool :=
  match stripCI ['r', 'a', 'n', 'd', 'o', 'm'] cs with
  | some rest =>
    match stripCI ['f', 'o', 'r', 'e', 's', 't'] (rest.dropWhile isJsSpace) with
    | some _ => true
    | none => false
  | none => false

/-- Does /random\s*forest/i match anywhere in the character list? -/
def rfTest : List Char → Bool
  | [] => rfMatchAt []
  | c :: cs => rfMatchAt (c :: cs) || rfTest cs

/-- Embeds parseUSDiamondsModelName of datasetRegistry.ts: the regex test
/random\s*forest/i selects RandomForest, everything else falls back to
Ridge. -/
def parseUSDiamondsModelName (m : String) : USDModelName :=
  if rfTest m.data then USDModelName.RandomForest else USDModelName.Ridge

/-! ## Importance analysis (shap route and usDiamonds.ts) -/

/-- Embeds normalizeImportance of the shap route (and the Ridge branch of
getUSDiamondsImportance, whose loop body is identical): absolute
coefficients indexed by feature name, intercept skipped, normalized by
the total (1 substituted when the total is zero).  The JavaScript record
is modelled by the association list of its insertions. -/
def normalizeImportance (featureNames : List String) (beta : List ℚ) :
    List (String × ℚ) :=
  let pairs := (List.range featureNames.length).filterMap (fun i =>
    if featureNames.getD i "" = "intercept" then none
    else some (featureNames.getD i "", |beta.getD i 0|))
  let total := (pairs.map (fun p => p.2)).sum
  let total := if total = 0 then 1 else total
  pairs.map (fun p => (p.1, p.2 / total))

/-- Embeds sampleRows of usDiamonds.ts: evenly strided subsampling with
Math.floor(i * (length / n)) modelled by natural division. -/
def sampleRows {α : Type} (d : α) (arr : List α) (n : ℕ) : List α :=
  if arr.length ≤ n then arr
  else (List.range n).map (fun i => arr.getD (i * arr.length / n) d)

/-- The mean-squared-error accumulation of permutationImportanceRF:
ys.reduce of squared differences divided by max(length, 1). -/
def mseOf (ys pred : List ℚ) : ℚ :=
  ((List.range ys.length).map
    (fun i => (ys.getD i 0 - pred.getD i 0) * (ys.getD i 0 - pred.getD i 0))).sum /
  (max ys.length 1 : ℕ)

/-- Column read shuffled.map(r => r[j]). -/
def getColumn (rows : List (List ℚ)) (j : ℕ) : List ℚ :=
  rows.map (fun r => r.getD j 0)

/-- Column write shuffled[i][j] = col[i] over all row indices. -/
def setColumn (rows : List (List ℚ)) (j : ℕ) (col : List ℚ) : List (List ℚ) :=
  (List.range rows.length).map (fun i => (rows.getD i []).set j (col.getD i 0))

/-- The raw (un-normalized) importance pairs of permutationImportanceRF:
for every column of the sampled matrix, shuffle that column (the
Fisher-Yates shuffle driven by Math.random is modelled by the oracle
shuffleCol), re-predict, and record max(0, shuffledMse - baseMse) under
the feature name (default x followed by the index). -/
def permRawImportances (pred : List (List ℚ) → List ℚ)
    (shuffleCol : ℕ → List ℚ → List ℚ) (Xs : List (List ℚ)) (ys : List ℚ)
    (featureNames : List String) : List (String × ℚ) :=
  (List.range (Xs.headD []).length).map (fun j =>
    (featureNames.getD j ("x" ++ toString j),
     max 0 (mseOf ys (pred (setColumn Xs j (shuffleCol j (getColumn Xs j)))) -
       mseOf ys (pred Xs))))

/-- Embeds permutationImportanceRF of usDiamonds.ts: subsample, compute
the normalized raw importances, and attach the two __baseline debug keys.
The random-forest predictor (an external collaborator) is the abstract
parameter pred. -/
def permutationImportanceRF (pred : List (List ℚ) → List ℚ)
    (shuffleCol : ℕ → List ℚ → List ℚ) (X : List (List ℚ)) (y : List ℚ)
    (featureNames : List String) (maxSamples : ℕ) : List (String × ℚ) :=
  let Xs := sampleRows [] X maxSamples
  let ys := sampleRows 0 y maxSamples
  let raw := permRawImportances pred shuffleCol Xs ys featureNames
  let total := (raw.map (fun p => p.2)).sum
  let total := if total = 0 then 1 else total
  let base := r2Mae ys (pred Xs)
  (raw.map (fun p => (p.1, p.2 / total))) ++
    [("__baseline_r2", base.1), ("__baseline_mae", base.2)]

/-- The k.startsWith two-underscore test of getUSDiamondsImportance,
modelled on the character list of the key. -/
def isHelperKey (s : String) : Bool :=
  s.data.take 2 = ['_', '_']

/-- The helper-key strip of getUSDiamondsImportance: entries whose key
starts with two underscores are removed before the map is returned. -/
def stripHelperKeys (l : List (String × ℚ)) : List (String × ℚ) :=
  l.filter (fun p => !(isHelperKey p.1))

/-- The public RandomForest importance map returned by
getUSDiamondsImportance: the permutation importances with the __baseline
debug keys stripped. -/
def rfImportancePublic (pred : List (List ℚ) → List ℚ)
    (shuffleCol : ℕ → List ℚ → List ℚ) (X : List (List ℚ)) (y : List ℚ)
    (featureNames : List String) (maxSamples : ℕ) : List (String × ℚ) :=
  stripHelperKeys (permutationImportanceRF pred shuffleCol X y featureNames maxSamples)

/-! ## Training-row ingestion filters -/

/-- A parsed CSV line of US_diamonds.csv after Number coercion: none
models a non-finite numeric cell. -/
structure ParsedUSRow where
  carat : Option ℚ
  cut : String
  color : String
  clarity : String
  depth : Option ℚ
  table : Option ℚ
  x : Option ℚ
  y : Option ℚ
  z : Option ℚ
  price : Option ℚ
deriving DecidableEq

/-- The row-acceptance test of loadTrainedUSDiamonds: the two continue
guards check only carat, price and the three categorical fields. -/
def keepUSRow (r : ParsedUSRow) : Bool :=
  (r.carat.isSome && r.price.isSome) &&
  (!(r.cut = "") && !(r.color = "") && !(r.clarity = ""))

/-- The ingestion loop of loadTrainedUSDiamonds restricted to its
row-dropping behavior: kept rows are pushed in order. -/
def loadUSRows (parsed : List ParsedUSRow) : List ParsedUSRow :=
  parsed.filter keepUSRow

/-- The acceptance test the claim asserts (follows the spec words, for
comparison with keepUSRow): every declared numeric field finite and every
categorical field non-empty. -/
def specKeepUSRow (r : ParsedUSRow) : Bool :=
  (r.carat.isSome && r.depth.isSome && r.table.isSome &&
   r.x.isSome && r.y.isSome && r.z.isSome && r.price.isSome) &&
  (!(r.cut = "") && !(r.color = "") && !(r.clarity = ""))

/-- A parsed CSV line of synthetic_auction_data.csv. -/
structure ParsedAuctionRow where
  lot_id : String
  carat : Option ℚ
  color : String
  clarity : String
  viewings : Option ℚ
  price_index : Option ℚ
  reserve_price : Option ℚ
  final_price : Option ℚ
  sold : Option ℚ
deriving DecidableEq

/-- The row-acceptance test of loadTrainedSyntheticAuction: the three
continue guards check lot_id, the three numeric features and the two
targets — not reserve_price and not the categorical fields. -/
def keepAuctionRow (r : ParsedAuctionRow) : Bool :=
  !(r.lot_id = "") &&
  (r.carat.isSome && r.viewings.isSome && r.price_index.isSome) &&
  (r.final_price.isSome && r.sold.isSome)

/-- The ingestion loop of loadTrainedSyntheticAuction restricted to its
row-dropping behavior. -/
def loadAuctionRows (parsed : List ParsedAuctionRow) : List ParsedAuctionRow :=
  parsed.filter keepAuctionRow

/-- The acceptance test the claim asserts for the synthetic dataset
(follows the spec words): every declared numeric field finite and every
categorical field non-empty. -/
def specKeepAuctionRow (r : ParsedAuctionRow) : Bool :=
  (r.carat.isSome && r.viewings.isSome && r.price_index.isSome &&
   r.reserve_price.isSome && r.final_price.isSome && r.sold.isSome) &&
  (!(r.color = "") && !(r.clarity = ""))

/-! ## Standard deviation (the std helper of both dataset modules) -/

/-- The variance accumulation of std: reduce of squared deviations from
the supplied mean divided by max(length, 1), over the reals since std
takes a square root. -/
noncomputable def varR (arr : List ℝ) (mu : ℝ) : ℝ :=
  arr.foldl (fun a b => a + (b - mu) * (b - mu)) 0 / (max arr.length 1 : ℕ)

/-- The mean helper over the reals (callers of std pass mean(arr)). -/
noncomputable def meanR (arr : List ℝ) : ℝ :=
  arr.foldl (fun a b => a + b) 0 / (max arr.length 1 : ℕ)

/-- Embeds std of both dataset modules: the square root of the population
variance when that root exceeds 1e-8, and otherwise the constant 1. -/
noncomputable def stdR (arr : List ℝ) (mu : ℝ) : ℝ :=
  if 1 / 100000000 < Real.sqrt (varR arr mu) then Real.sqrt (varR arr mu) else 1

/-! ## Dense linear algebra (usDiamonds.ts / syntheticAuction.ts) -/

/-- Embeds transpose: T[j][i] = A[i][j]. -/
def transposeF {m k : ℕ} (A : Fin m → Fin k → ℚ) : Fin k → Fin m → ℚ :=
  fun j i => A i j

/-- Embeds matMul: the triple loop accumulating out[i][j] += A[i][t] * B[t][j]
is the finite sum over the inner index. -/
def matMulF {m k p : ℕ} (A : Fin m → Fin k → ℚ) (B : Fin k → Fin p → ℚ) :
    Fin m → Fin p → ℚ :=
  fun i j => ∑ t, A i t * B t j

/-- Embeds matVecMul: out[i] = sum over j of A[i][j] * v[j]. -/
def matVecMulF {m k : ℕ} (A : Fin m → Fin k → ℚ) (v : Fin k → ℚ) : Fin m → ℚ :=
  fun i => ∑ j, A i j * v j

/-- The working state of solve: the mutated copy M of the matrix and the
mutated copy x of the right-hand side. -/
structure GEState (n : ℕ) where
  M : Fin n → Fin n → ℚ
  x : Fin n → ℚ

/-- The partial-pivot search of solve: scan rows strictly below the
current column, keeping the first row whose absolute value strictly
exceeds the current best (which starts at the diagonal entry). -/
def findPivot {n : ℕ} (M : Fin n → Fin n → ℚ) (col : Fin n) : Fin n :=
  (List.finRange n).foldl
    (fun p r => if col < r ∧ |M p col| < |M r col| then r else p) col

/-- The destructuring row swap of solve, applied to both M and x. -/
def swapState {n : ℕ} (s : GEState n) (i j : Fin n) : GEState n :=
  { M := fun r c => s.M (Equiv.swap i j r) c
    x := fun r => s.x (Equiv.swap i j r) }

/-- The epsilon substituted for an exactly-zero pivot (1e-12). -/
def epsPivot : ℚ := 1 / 1000000000000

/-- The conditional swap if (pivot !== col). -/
def pivotSwap {n : ℕ} (s : GEState n) (col : Fin n) : GEState n :=
  let p := findPivot s.M col
  if p = col then s else swapState s col p

/-- Row normalization of solve: entries of the pivot row from the pivot
column rightwards, and the pivot entry of x, divided by the pivot
value d. -/
def normalizeRow {n : ℕ} (s : GEState n) (col : Fin n) (d : ℚ) : GEState n :=
  { M := fun r c => if r = col ∧ col ≤ c then s.M r c / d else s.M r c
    x := fun r => if r = col then s.x r / d else s.x r }

/-- The full-elimination pass of solve: every row other than the pivot
row, with a nonzero factor in the pivot column, has factor times the
pivot row subtracted (columns from the pivot column rightwards) and
factor times the pivot entry of x subtracted. -/
def eliminate {n : ℕ} (s : GEState n) (col : Fin n) : GEState n :=
  { M := fun r c =>
      if r ≠ col ∧ s.M r col ≠ 0 ∧ col ≤ c then s.M r c - s.M r col * s.M col c
      else s.M r c
    x := fun r =>
      if r ≠ col ∧ s.M r col ≠ 0 then s.x r - s.M r col * s.x col
      else s.x r }

/-- One iteration of the column loop of solve: partial pivot, swap,
normalize by the pivot (epsilon substituted when the pivot is exactly
zero), and eliminate the column from all other rows. -/
def geStep {n : ℕ} (s : GEState n) (col : Fin n) : GEState n :=
  let s1 := pivotSwap s col
  let d := if s1.M col col = 0 then epsPivot else s1.M col col
  eliminate (normalizeRow s1 col d) col

/-- Embeds solve of both dataset modules: Gaussian elimination with
partial pivoting and full (Gauss-Jordan) elimination over the columns in
increasing order; the answer is the transformed right-hand side. -/
def solve {n : ℕ} (A : Fin n → Fin n → ℚ) (b : Fin n → ℚ) : Fin n → ℚ :=
  ((List.finRange n).foldl geStep { M := A, x := b }).x

/-- The state of solve after its first t column iterations (used to state
the loop invariant; solve itself is the state after all n). -/
def solveSteps {n : ℕ} (A : Fin n → Fin n → ℚ) (b : Fin n → ℚ) (t : ℕ) : GEState n :=
  (((List.finRange n).take t)).foldl geStep { M := A, x := b }

/-- The regularized normal-equations matrix formed by ridgeFit:
transpose(X) * X with lambda added on the diagonal. -/
def ridgeMatrix {m k : ℕ} (X : Fin m → Fin k → ℚ) (lam : ℚ) : Fin k → Fin k → ℚ :=
  fun i j =>
    if i = j then matMulF (transposeF X) X i j + lam else matMulF (transposeF X) X i j

/-- Embeds ridgeFit of both dataset modules: form transpose(X) * X, add
lambda to the diagonal, form transpose(X) * y, and call solve. -/
def ridgeFit {m k : ℕ} (X : Fin m → Fin k → ℚ) (y : Fin m → ℚ) (lam : ℚ) :
    Fin k → ℚ :=
  solve (ridgeMatrix X lam) (matVecMulF (transposeF X) y)

/-- The Gauss-Jordan loop invariant after the first k column iterations
of solve: the transformed system has exactly the solutions of the
original system, and the first k columns have been reduced to identity
columns. -/
def GEInv {n : ℕ} (A : Fin n → Fin n → ℚ) (b : Fin n → ℚ) (k : ℕ) (s : GEState n) :
    Prop :=
  (∀ u : Fin n → ℚ, matVecMulF s.M u = s.x ↔ matVecMulF A u = b) ∧
  (∀ r c : Fin n, (c : ℕ) < k → s.M r c = if r = c then 1 else 0)

/-! ## Concrete example values used by closed witness statements -/

/-- A small concrete trained-range record. -/
def demoRanges : AuctionRanges :=
  { carat := { min := 0, max := 2 }
    viewings := { min := 0, max := 10 }
    price_index := { min := 90, max := 110 } }

/-- A small concrete linear model. -/
def demoModel : SaleModel :=
  { features := ["intercept", "carat", "viewings", "price_index"]
    beta := [1, 2, 0, 0]
    numericMeans := { carat := 0, viewings := 0, price_index := 0 }
    numericStds := { carat := 1, viewings := 1, price_index := 1 }
    colorLevels := []
    clarityLevels := [] }

/-- A parsed US-diamonds CSV row whose depth cell is non-finite while
carat, price and the categorical cells are all valid. -/
def usRowBadDepth : ParsedUSRow :=
  { carat := some 1, cut := "Ideal", color := "G", clarity := "VS1"
    depth := none, table := some 55, x := some 4, y := some 4, z := some 2
    price := some 5000 }

/-- The surface resolution as the claim words it: min(50, max(10, n)).
The route computes max(10, min(50, n)); the two clamps agree. -/
def claimRes (nPoints : ℤ) : ℕ :=
  (min 50 (max 10 nPoints)).toNat

/-! ## Shared helper lemmas -/

theorem foldl_add_init {M : Type} [AddCommMonoid M] (l : List M) (a : M) :
    l.foldl (fun x y => x + y) a = a + l.sum := by
  induction l generalizing a with
  | nil => simp
  | cons h t ih => simp [ih, add_assoc]

theorem qsum_nonneg (l : List ℚ) (h : ∀ a ∈ l, 0 ≤ a) : 0 ≤ l.sum := by
  induction l with
  | nil => simp
  | cons x t ih =>
    simp only [List.sum_cons]
    have hx := h x (by simp)
    have ht := ih (fun a ha => h a (by simp [ha]))
    linarith

theorem qsum_pos (l : List ℚ) (h : ∀ a ∈ l, 0 ≤ a) (hx : ∃ a ∈ l, 0 < a) :
    0 < l.sum := by
  induction l with
  | nil => simp at hx
  | cons x t ih =>
    simp only [List.sum_cons]
    have hx0 := h x (by simp)
    have ht0 := qsum_nonneg t (fun a ha => h a (by simp [ha]))
    rcases hx with ⟨a, ha, hapos⟩
    rcases List.mem_cons.mp ha with rfl | hat
    · linarith
    · have := ih (fun a ha => h a (by simp [ha])) ⟨a, hat, hapos⟩
      linarith

theorem qsum_div (l : List ℚ) (t : ℚ) :
    (l.map (fun v => v / t)).sum = l.sum / t := by
  induction l with
  | nil => simp
  | cons x xs ih => simp [ih, add_div]

theorem qsum_const (l : List ℚ) (c : ℚ) (h : ∀ a ∈ l, a = c) :
    l.sum = l.length * c := by
  induction l with
  | nil => simp
  | cons x t ih =>
    have hx := h x (by simp)
    have ht := ih (fun a ha => h a (by simp [ha]))
    simp [hx, ht]
    ring

theorem clamp01_nonneg (x : ℚ) : 0 ≤ clamp01 x := by
  unfold clamp01
  split_ifs <;> linarith

theorem clamp01_le_one (x : ℚ) : clamp01 x ≤ 1 := by
  unfold clamp01
  split_ifs <;> linarith

/-! ## C10 -/

/-- C10: for every exp oracle, model and finite input record, the sale
probability predicted by predictSaleProba lies in the closed interval
[0, 1] (the raw linear score goes through the stable sigmoid and is then
clamped), whereas predictPrice is an unbounded linear score: it attains
every rational value at some model and input. -/
theorem sale_proba_unit_interval (e : ℚ → ℚ) (model : SaleModel) (input : SaleInput) :
    (0 ≤ predictSaleProba e model input ∧ predictSaleProba e model input ≤ 1) ∧
    ∀ q : ℚ, ∃ (m : SaleModel) (inp : SaleInput), predictPrice m inp = q := by
  constructor
  · exact ⟨clamp01_nonneg _, clamp01_le_one _⟩
  · intro q
    refine ⟨{ features := [], beta := [q],
              numericMeans := ⟨0, 0, 0⟩, numericStds := ⟨1, 1, 1⟩,
              colorLevels := [], clarityLevels := [] },
            ⟨0, 0, 0, "", ""⟩, ?_⟩
    norm_num [predictPrice, dotFV, buildFeatureVector, List.range_succ]

/-! ## C4 -/

/-- C4 counterexample: the constant non-empty vector [1, 1] predicted
perfectly yields r2 = 0 through the guarded SStot = 0 branch, not the
r2 = 1 the claim asserts for every non-empty y. -/
theorem r2_perfect_on_constant_ne_one :
    (r2Mae [1, 1] [1, 1]).1 = 0 ∧ (r2Mae [1, 1] [1, 1]).1 ≠ 1 := by
  have e1 : List.range 2 = [0, 1] := rfl
  have h : (r2Mae [1, 1] [1, 1]).1 = 0 := by
    norm_num [r2Mae, meanQ, e1]
  exact ⟨h, by rw [h]; norm_num⟩

/-- C4 amended: perfect predictions yield r2 = 1 and mae = 0 for every y
taking at least two distinct values (so that SStot is positive); on a
constant yTrue — perfectly predicted or not, including every non-empty
constant vector — the guarded division yields r2 = 0. -/
theorem r2Mae_boundary_amended :
    (∀ y : List ℚ, (∃ a ∈ y, ∃ b ∈ y, a ≠ b) → r2Mae y y = (1, 0)) ∧
    (∀ (y yPred : List ℚ) (c : ℚ), (∀ a ∈ y, a = c) → (r2Mae y yPred).1 = 0) := by
  constructor
  · rintro y ⟨a, ha, b, hb, hab⟩
    have hres : ((List.range y.length).map
        (fun i => (y.getD i 0 - y.getD i 0) * (y.getD i 0 - y.getD i 0))).sum = 0 := by
      apply List.sum_eq_zero
      intro x hx
      rcases List.mem_map.mp hx with ⟨i, _, rfl⟩
      ring
    have hmae : ((List.range y.length).map
        (fun i => |y.getD i 0 - y.getD i 0|)).sum = 0 := by
      apply List.sum_eq_zero
      intro x hx
      rcases List.mem_map.mp hx with ⟨i, _, rfl⟩
      simp
    have htot : 0 < ((List.range y.length).map
        (fun i => (y.getD i 0 - meanQ y) * (y.getD i 0 - meanQ y))).sum := by
      apply qsum_pos
      · intro t ht
        rcases List.mem_map.mp ht with ⟨i, _, rfl⟩
        exact mul_self_nonneg _
      · have key : ∃ v ∈ y, v ≠ meanQ y := by
          rcases eq_or_ne a (meanQ y) with h | h
          · exact ⟨b, hb, by rw [← h]; exact fun hba => hab (hba.symm)⟩
          · exact ⟨a, ha, h⟩
        rcases key with ⟨v, hv, hvne⟩
        rcases List.mem_iff_getElem.mp hv with ⟨i, hi, rfl⟩
        refine ⟨(y.getD i 0 - meanQ y) * (y.getD i 0 - meanQ y), ?_, ?_⟩
        · exact List.mem_map.mpr ⟨i, List.mem_range.mpr hi, rfl⟩
        · apply mul_self_pos.mpr
          rw [List.getD_eq_getElem y 0 hi]
          exact sub_ne_zero.mpr hvne
    simp only [r2Mae]
    rw [if_pos htot, hres, hmae]
    simp
  · intro y yPred c hconst
    rcases Nat.eq_zero_or_pos y.length with hlen | hlen
    · simp only [r2Mae]
      simp [hlen]
    · have hm : max y.length 1 = y.length := max_eq_left hlen
      have hmu : meanQ y = c := by
        unfold meanQ
        rw [foldl_add_init, zero_add, qsum_const y c hconst, hm]
        have hne : (y.length : ℚ) ≠ 0 := by
          exact_mod_cast Nat.pos_iff_ne_zero.mp hlen
        field_simp
      have htot : ((List.range y.length).map
          (fun i => (y.getD i 0 - meanQ y) * (y.getD i 0 - meanQ y))).sum = 0 := by
        apply List.sum_eq_zero
        intro x hx
        rcases List.mem_map.mp hx with ⟨i, hi, rfl⟩
        have hiy : i < y.length := List.mem_range.mp hi
        rw [List.getD_eq_getElem y 0 hiy, hconst _ (List.getElem_mem hiy), hmu]
        ring
      simp only [r2Mae]
      rw [htot]
      simp

/-- C4 amended witness: concrete instances of both boundary behaviors. -/
theorem r2Mae_boundary_amended_witness :
    r2Mae [1, 2] [1, 2] = (1, 0) ∧ (r2Mae [3, 3] [0, 7]).1 = 0 :=
  ⟨r2Mae_boundary_amended.1 [1, 2]
    ⟨1, by norm_num, 2, by norm_num, by norm_num⟩,
   r2Mae_boundary_amended.2 [3, 3] [0, 7] 3 (by norm_num)⟩

/-! ## C6 -/

/-- C6 counterexample: a parsed US-diamonds row whose depth cell is
non-finite is nevertheless kept by the ingestion loop, because the
loaders only check carat and price among the numeric fields — so the
claimed only-if direction (every declared numeric field finite) fails. -/
theorem ingestion_keeps_nonfinite_depth :
    loadUSRows [usRowBadDepth] = [usRowBadDepth] ∧
    usRowBadDepth.depth = none ∧
    specKeepUSRow usRowBadDepth = false := by
  refine ⟨?_, rfl, rfl⟩
  simp [loadUSRows, keepUSRow, usRowBadDepth]

/-- C6 amended: a parsed row is kept if and only if the fields the code
actually guards pass — for US diamonds: carat and price finite and cut,
color, clarity non-empty (depth, table, x, y, z are not checked); for the
synthetic auction data: lot_id non-empty and carat, viewings,
price_index, final_price, sold finite (reserve_price, color and clarity
are not checked).  Rows are dropped individually: membership in the
loaded list is membership in the parsed list plus passing the guard. -/
theorem ingestion_filter_amended :
    (∀ r : ParsedUSRow, keepUSRow r = true ↔
      (r.carat.isSome = true ∧ r.price.isSome = true ∧
       r.cut ≠ "" ∧ r.color ≠ "" ∧ r.clarity ≠ "")) ∧
    (∀ r : ParsedAuctionRow, keepAuctionRow r = true ↔
      (r.lot_id ≠ "" ∧ r.carat.isSome = true ∧ r.viewings.isSome = true ∧
       r.price_index.isSome = true ∧ r.final_price.isSome = true ∧
       r.sold.isSome = true)) ∧
    (∀ (l : List ParsedUSRow) (r : ParsedUSRow),
      r ∈ loadUSRows l ↔ r ∈ l ∧ keepUSRow r = true) ∧
    (∀ (l : List ParsedAuctionRow) (r : ParsedAuctionRow),
      r ∈ loadAuctionRows l ↔ r ∈ l ∧ keepAuctionRow r = true) := by
  refine ⟨?_, ?_, ?_, ?_⟩
  · intro r
    simp [keepUSRow, and_assoc]
  · intro r
    simp [keepAuctionRow, and_assoc]
  · intro l r
    simp [loadUSRows, List.mem_filter]
  · intro l r
    simp [loadAuctionRows, List.mem_filter]

/-- C6 amended witness: the characterization evaluated on the concrete
bad-depth row. -/
theorem ingestion_filter_amended_witness :
    keepUSRow usRowBadDepth = true ↔
      (usRowBadDepth.carat.isSome = true ∧ usRowBadDepth.price.isSome = true ∧
       usRowBadDepth.cut ≠ "" ∧ usRowBadDepth.color ≠ "" ∧
       usRowBadDepth.clarity ≠ "") :=
  ingestion_filter_amended.1 usRowBadDepth

/-! ## C7 -/

/-- C7 counterexample: a request naming an unknown model kind is not
rejected — parseUSDiamondsModelName silently substitutes the default
Ridge kind; and a request with an unsupported objective is answered by
the structured no-feasible-solution response of the optimizer (best
stays null), not by an input validation error. -/
theorem unknown_model_and_objective_not_rejected :
    parseUSDiamondsModelName "gradient boosting" = USDModelName.Ridge ∧
    optimizeSynthetic (fun _ => 0) (fun _ => 0) "maximize_profit" 50 (1/2) 5000 (4/5)
      "G" "VS1" (fun _ => { carat := 0, viewings := 0, price_index := 0 }) = none := by
  constructor
  · rfl
  · rfl

/-- C7 amended: the request boundary never rejects a model kind — every
model-name string is parsed to Ridge or RandomForest, with Ridge the
silent default for unrecognized names — and an objective outside
max_price, max_prob, target is not validated either: every trial keeps
score at -Infinity, no candidate is ever retained, and the optimizer
returns the structured no-feasible-solution response. -/
theorem model_and_objective_fallback_amended :
    (∀ m : String, parseUSDiamondsModelName m = USDModelName.Ridge ∨
      parseUSDiamondsModelName m = USDModelName.RandomForest) ∧
    (∀ (pp ps : SaleInput → ℚ) (objective : String) (nSamples : ℤ)
       (minProb targetPrice targetProb : ℚ) (fc fcl : String) (sample : ℕ → Trial),
      objective ≠ "max_price" → objective ≠ "max_prob" → objective ≠ "target" →
      optimizeSynthetic pp ps objective nSamples minProb targetPrice targetProb
        fc fcl sample = none) := by
  constructor
  · intro m
    by_cases h : rfTest m.data = true
    · right
      simp [parseUSDiamondsModelName, h]
    · left
      simp [parseUSDiamondsModelName, h]
  · intro pp ps objective nSamples minProb targetPrice targetProb fc fcl sample h1 h2 h3
    unfold optimizeSynthetic
    have hstep : ∀ (st : OptState) (tr : Trial),
        optStep pp ps objective minProb targetPrice targetProb fc fcl st tr = st := by
      intro st tr
      simp [optStep, h1, h2, h3, scoreGt]
    have hfold : ∀ (l : List Trial) (st : OptState),
        l.foldl (optStep pp ps objective minProb targetPrice targetProb fc fcl) st = st := by
      intro l
      induction l with
      | nil => intro st; rfl
      | cons tr t ih => intro st; rw [List.foldl_cons, hstep st tr, ih st]
    simp only [hfold]

/-- C7 amended witness: a concrete unsupported objective string yields
the no-feasible-solution response. -/
theorem model_and_objective_fallback_witness :
    optimizeSynthetic (fun _ => 100) (fun _ => 1) "balance" 200 0 0 0 "G" "VS1"
      (fun _ => { carat := 1, viewings := 2, price_index := 3 }) = none :=
  model_and_objective_fallback_amended.2 (fun _ => 100) (fun _ => 1) "balance" 200 0 0 0
    "G" "VS1" (fun _ => { carat := 1, viewings := 2, price_index := 3 })
    (by simp) (by simp) (by simp)

/-! ## C9 -/

/-- C9 counterexample: no single positive epsilon makes the stored
standard deviation equal max(population std, epsilon): a constant field
([0, 0], population std 0) stores 1, forcing epsilon = 1, while a field
with population std 1/2 ([0, 1]) stores 1/2 < max(1/2, 1). -/
theorem std_not_epsilon_max :
    ¬ ∃ ε : ℝ, 0 < ε ∧
      ∀ arr : List ℝ, stdR arr (meanR arr) = max (Real.sqrt (varR arr (meanR arr))) ε := by
  rintro ⟨ε, hε, h⟩
  have m1 : meanR [0, 0] = 0 := by
    norm_num [meanR]
  have v1 : varR [0, 0] (meanR [0, 0]) = 0 := by
    rw [m1]
    norm_num [varR]
  have s1 : stdR [0, 0] (meanR [0, 0]) = 1 := by
    unfold stdR
    rw [v1, Real.sqrt_zero]
    norm_num
  have h1 := h [0, 0]
  rw [s1, v1, Real.sqrt_zero, max_eq_right hε.le] at h1
  have m2 : meanR [0, 1] = 1 / 2 := by
    norm_num [meanR]
  have v2 : varR [0, 1] (meanR [0, 1]) = 1 / 4 := by
    rw [m2]
    norm_num [varR]
  have sq2 : Real.sqrt ((1 : ℝ) / 4) = 1 / 2 := by
    rw [show (1 : ℝ) / 4 = (1 / 2) ^ 2 by norm_num,
      Real.sqrt_sq (by norm_num : (0 : ℝ) ≤ 1 / 2)]
  have s2 : stdR [0, 1] (meanR [0, 1]) = 1 / 2 := by
    unfold stdR
    rw [v2, sq2, if_pos (by norm_num : (1 : ℝ) / 100000000 < 1 / 2)]
  have h2 := h [0, 1]
  rw [s2, v2, sq2, ← h1, max_eq_right (by norm_num : (1 : ℝ) / 2 ≤ 1)] at h2
  norm_num at h2

/-- C9 amended: the stored standard deviation is either the population
standard deviation or the constant fallback 1 (not a small epsilon): it
equals the population std exactly when that exceeds 1e-8, is the
constant 1 otherwise, and is strictly positive in all cases, so
normalization denominators cannot blow up. -/
theorem std_floor_amended (arr : List ℝ) (mu : ℝ) :
    (stdR arr mu = Real.sqrt (varR arr mu) ∨ stdR arr mu = 1) ∧
    0 < stdR arr mu ∧
    (1 / 100000000 < Real.sqrt (varR arr mu) → stdR arr mu = Real.sqrt (varR arr mu)) ∧
    (Real.sqrt (varR arr mu) ≤ 1 / 100000000 → stdR arr mu = 1) := by
  by_cases h : (1 : ℝ) / 100000000 < Real.sqrt (varR arr mu)
  · unfold stdR
    rw [if_pos h]
    exact ⟨Or.inl rfl, lt_trans (by norm_num) h, fun _ => rfl,
      fun hle => absurd h (not_lt.mpr hle)⟩
  · unfold stdR
    rw [if_neg h]
    exact ⟨Or.inr rfl, by norm_num, fun hc => absurd hc h, fun _ => rfl⟩

/-- C9 amended witness: the population std of [0, 1] about its mean 1/2
is 1/2 > 1e-8 and is stored unchanged, while the constant list [0, 0]
has population std 0 at or below the threshold and stores the
constant 1. -/
theorem std_floor_amended_witness :
    ((1 : ℝ) / 100000000 < Real.sqrt (varR [0, 1] (1 / 2)) ∧
     stdR [0, 1] (1 / 2) = Real.sqrt (varR [0, 1] (1 / 2))) ∧
    (Real.sqrt (varR [0, 0] 0) ≤ (1 : ℝ) / 100000000 ∧
     stdR [0, 0] 0 = 1) := by
  have v2 : varR [0, 1] ((1 : ℝ) / 2) = 1 / 4 := by
    norm_num [varR]
  have hgt : (1 : ℝ) / 100000000 < Real.sqrt (varR [0, 1] (1 / 2)) := by
    rw [v2, show (1 : ℝ) / 4 = (1 / 2) ^ 2 by norm_num,
      Real.sqrt_sq (by norm_num : (0 : ℝ) ≤ 1 / 2)]
    norm_num
  have v0 : varR [0, 0] (0 : ℝ) = 0 := by
    norm_num [varR]
  have hle : Real.sqrt (varR [0, 0] 0) ≤ (1 : ℝ) / 100000000 := by
    rw [v0, Real.sqrt_zero]
    norm_num
  exact ⟨⟨hgt, (std_floor_amended [0, 1] (1 / 2)).2.2.1 hgt⟩,
    ⟨hle, (std_floor_amended [0, 0] 0).2.2.2 hle⟩⟩

/-! ## C8 -/

theorem linspace_length (lo hi : ℚ) (n : ℕ) :
    (linspace lo hi n).length = if n ≤ 1 then 1 else n := by
  unfold linspace
  split_ifs
  · rfl
  · rw [List.length_map, List.length_range]

/-- C2: for two valid numeric surface variables and any requested point
count, the returned grids are each r-by-r with r = min(50, max(10,
n_points)), x_grid[i][j] is the j-th point of the linspace over varX's
trained range, and y_grid[i][j] is the i-th point of the linspace over
varY's trained range. -/
theorem surface_grid_shape (e : ℚ → ℚ) (t : AuctionRanges) (pm sm : SaleModel)
    (varX varY metric : String) (nPoints : ℤ) (fc fcl : String) (rx ry : QRange)
    (hx : rangesLookup t varX = some rx) (hy : rangesLookup t varY = some ry) :
    ∃ g : SurfaceGrids,
      surfacePOST e t pm sm varX varY metric nPoints fc fcl = some g ∧
      (g.x_grid.length = claimRes nPoints ∧ g.y_grid.length = claimRes nPoints ∧
       g.z_values.length = claimRes nPoints) ∧
      (∀ row ∈ g.x_grid, row.length = claimRes nPoints) ∧
      (∀ row ∈ g.y_grid, row.length = claimRes nPoints) ∧
      (∀ row ∈ g.z_values, row.length = claimRes nPoints) ∧
      (∀ i j, i < claimRes nPoints → j < claimRes nPoints →
        (g.x_grid.getD i []).getD j 0 =
          (linspace rx.min rx.max (claimRes nPoints)).getD j 0 ∧
        (g.y_grid.getD i []).getD j 0 =
          (linspace ry.min ry.max (claimRes nPoints)).getD i 0) := by
  have hR : (max 10 (min 50 nPoints)).toNat = claimRes nPoints := by
    unfold claimRes
    omega
  have h10 : 10 ≤ claimRes nPoints := by
    unfold claimRes
    omega
  have hxs : (linspace rx.min rx.max (claimRes nPoints)).length = claimRes nPoints := by
    rw [linspace_length, if_neg (by omega)]
  have hys : (linspace ry.min ry.max (claimRes nPoints)).length = claimRes nPoints := by
    rw [linspace_length, if_neg (by omega)]
  unfold surfacePOST
  rw [hx, hy]
  simp only [hR]
  refine ⟨_, rfl, ⟨?_, ?_, ?_⟩, ?_, ?_, ?_, ?_⟩
  · simp [hys]
  · simp [hys]
  · simp [hys]
  · intro row hrow
    rcases List.mem_map.mp hrow with ⟨a, _, rfl⟩
    simp [hxs]
  · intro row hrow
    rcases List.mem_map.mp hrow with ⟨a, _, rfl⟩
    simp [hxs]
  · intro row hrow
    rcases List.mem_map.mp hrow with ⟨a, _, rfl⟩
    simp [hxs]
  · intro i j hi hj
    have hiy : i < (linspace ry.min ry.max (claimRes nPoints)).length := by
      rw [hys]; exact hi
    have hjx : j < (linspace rx.min rx.max (claimRes nPoints)).length := by
      rw [hxs]; exact hj
    constructor
    · have hlen : i < ((linspace ry.min ry.max (claimRes nPoints)).map
          (fun _ => (linspace rx.min rx.max (claimRes nPoints)).map (fun xv => xv))).length := by
        simpa using hiy
      rw [List.getD_eq_getElem _ _ hlen, List.getElem_map]
      have hlen2 : j < ((linspace rx.min rx.max (claimRes nPoints)).map
          (fun xv => xv)).length := by
        simpa using hjx
      rw [List.getD_eq_getElem _ _ hlen2, List.getElem_map,
        List.getD_eq_getElem _ _ hjx]
    · have hlen : i < ((linspace ry.min ry.max (claimRes nPoints)).map
          (fun yv => (linspace rx.min rx.max (claimRes nPoints)).map (fun _ => yv))).length := by
        simpa using hiy
      rw [List.getD_eq_getElem _ _ hlen, List.getElem_map]
      have hlen2 : j < ((linspace rx.min rx.max (claimRes nPoints)).map
          (fun _ => (linspace ry.min ry.max (claimRes nPoints))[i])).length := by
        simpa using hjx
      rw [List.getD_eq_getElem _ _ hlen2, List.getElem_map,
        List.getD_eq_getElem _ _ hiy]

/-- C2 witness: the shape contract evaluated at a concrete request. -/
theorem surface_grid_shape_witness :
    ∃ g : SurfaceGrids,
      surfacePOST (fun _ => 1) demoRanges demoModel demoModel
        "carat" "viewings" "Final Price" 25 "G" "VS1" = some g ∧
      g.x_grid.length = claimRes 25 := by
  obtain ⟨g, hg, ⟨h1, _, _⟩, _⟩ := surface_grid_shape (fun _ => 1) demoRanges demoModel
    demoModel "carat" "viewings" "Final Price" 25 "G" "VS1"
    demoRanges.carat demoRanges.viewings rfl rfl
  exact ⟨g, hg, h1⟩

/-! ## C3 -/

theorem optStep_max_price (pp ps : SaleInput → ℚ) (mp tp tpr : ℚ) (fc fcl : String)
    (st : OptState) (tr : Trial) :
    optStep pp ps "max_price" mp tp tpr fc fcl st tr =
      if ps (trialInput tr fc fcl) < mp then st
      else if scoreGt (some (pp (trialInput tr fc fcl))) st.bestScore then
        { best := some
            { carat := tr.carat, viewings := tr.viewings, price_index := tr.price_index
              color := fc, clarity := fcl
              pred_price := pp (trialInput tr fc fcl)
              pred_prob := ps (trialInput tr fc fcl)
              objective_score := some (pp (trialInput tr fc fcl)) }
          bestScore := some (pp (trialInput tr fc fcl)) }
      else st := by
  unfold optStep
  simp

theorem scoreGt_some_false {x : ℚ} {b : Option ℚ} (h : scoreGt (some x) b = false) :
    b.isSome = true := by
  cases b with
  | none => simp [scoreGt] at h
  | some v => rfl

theorem optFold_max_price (pp ps : SaleInput → ℚ) (mp tp tpr : ℚ) (fc fcl : String)
    (l : List Trial) (st : OptState)
    (hbs : st.best.isSome = st.bestScore.isSome)
    (hfeas : ∀ c, st.best = some c → mp ≤ c.pred_prob) :
    ((l.foldl (optStep pp ps "max_price" mp tp tpr fc fcl) st).best.isSome = true ↔
      (st.best.isSome = true ∨ ∃ tr ∈ l, mp ≤ ps (trialInput tr fc fcl))) ∧
    (∀ c, (l.foldl (optStep pp ps "max_price" mp tp tpr fc fcl) st).best = some c →
      mp ≤ c.pred_prob) ∧
    (l.foldl (optStep pp ps "max_price" mp tp tpr fc fcl) st).best.isSome =
      (l.foldl (optStep pp ps "max_price" mp tp tpr fc fcl) st).bestScore.isSome := by
  induction l generalizing st with
  | nil =>
    refine ⟨by simp, hfeas, hbs⟩
  | cons tr rest ih =>
    rw [List.foldl_cons]
    by_cases hskip : ps (trialInput tr fc fcl) < mp
    · have hst1 : optStep pp ps "max_price" mp tp tpr fc fcl st tr = st := by
        rw [optStep_max_price, if_pos hskip]
      rw [hst1]
      obtain ⟨ih1, ih2, ih3⟩ := ih st hbs hfeas
      refine ⟨?_, ih2, ih3⟩
      rw [ih1]
      constructor
      · rintro (h | h)
        · exact Or.inl h
        · exact Or.inr (by
            rcases h with ⟨t, ht, hle⟩
            exact ⟨t, List.mem_cons_of_mem _ ht, hle⟩)
      · rintro (h | ⟨t, ht, hle⟩)
        · exact Or.inl h
        · rcases List.mem_cons.mp ht with rfl | ht2
          · exact absurd hle (not_le.mpr hskip)
          · exact Or.inr ⟨t, ht2, hle⟩
    · have hpass : mp ≤ ps (trialInput tr fc fcl) := not_lt.mp hskip
      by_cases hgt : scoreGt (some (pp (trialInput tr fc fcl))) st.bestScore = true
      · have hst1 : optStep pp ps "max_price" mp tp tpr fc fcl st tr =
            { best := some
                { carat := tr.carat, viewings := tr.viewings, price_index := tr.price_index
                  color := fc, clarity := fcl
                  pred_price := pp (trialInput tr fc fcl)
                  pred_prob := ps (trialInput tr fc fcl)
                  objective_score := some (pp (trialInput tr fc fcl)) }
              bestScore := some (pp (trialInput tr fc fcl)) } := by
          rw [optStep_max_price, if_neg hskip, if_pos hgt]
        rw [hst1]
        obtain ⟨ih1, ih2, ih3⟩ := ih
          { best := some
              { carat := tr.carat, viewings := tr.viewings, price_index := tr.price_index
                color := fc, clarity := fcl
                pred_price := pp (trialInput tr fc fcl)
                pred_prob := ps (trialInput tr fc fcl)
                objective_score := some (pp (trialInput tr fc fcl)) }
            bestScore := some (pp (trialInput tr fc fcl)) } rfl
          (by
            intro c hc
            have hx := Option.some_inj.mp hc
            rw [← hx]
            exact hpass)
        refine ⟨?_, ih2, ih3⟩
        rw [ih1]
        simp only [Option.isSome_some, true_or, true_iff]
        exact Or.inr ⟨tr, List.mem_cons_self tr rest, hpass⟩
      · have hgt2 : scoreGt (some (pp (trialInput tr fc fcl))) st.bestScore = false := by
          simpa using hgt
        have hst1 : optStep pp ps "max_price" mp tp tpr fc fcl st tr = st := by
          rw [optStep_max_price, if_neg hskip, if_neg (by simp [hgt2])]
        rw [hst1]
        have hsome : st.best.isSome = true := by
          rw [hbs]
          exact scoreGt_some_false hgt2
        obtain ⟨ih1, ih2, ih3⟩ := ih st hbs hfeas
        refine ⟨?_, ih2, ih3⟩
        rw [ih1]
        simp [hsome]

/-- C3: under the max_price objective the optimizer returns a candidate
exactly when some sampled trial has predicted sale probability at least
min_prob; every returned candidate itself satisfies the constraint; with
min_prob = 0 a candidate is always returned (the clamped sigmoid is
non-negative and the clamped trial count is positive), and with
min_prob = 1.01 the structured no-feasible-solution result is always
returned (the clamped sigmoid never exceeds 1). -/
theorem optimizer_max_price_feasibility (pp : SaleInput → ℚ) (e : ℚ → ℚ) (sm : SaleModel)
    (nSamples : ℤ) (minProb targetPrice targetProb : ℚ) (fc fcl : String)
    (sample : ℕ → Trial) :
    ((∃ c, optimizeSynthetic pp (predictSaleProba e sm) "max_price" nSamples minProb
        targetPrice targetProb fc fcl sample = some c) ↔
      (∃ i < (max 50 (min 5000 nSamples)).toNat,
        minProb ≤ predictSaleProba e sm (trialInput (sample i) fc fcl))) ∧
    (∀ c, optimizeSynthetic pp (predictSaleProba e sm) "max_price" nSamples minProb
        targetPrice targetProb fc fcl sample = some c → minProb ≤ c.pred_prob) ∧
    (minProb = 0 → ∃ c, optimizeSynthetic pp (predictSaleProba e sm) "max_price" nSamples
        minProb targetPrice targetProb fc fcl sample = some c) ∧
    (minProb = 101 / 100 → optimizeSynthetic pp (predictSaleProba e sm) "max_price" nSamples
        minProb targetPrice targetProb fc fcl sample = none) := by
  obtain ⟨h1, h2, h3⟩ := optFold_max_price pp (predictSaleProba e sm) minProb targetPrice
    targetProb fc fcl (((List.range (max 50 (min 5000 nSamples)).toNat)).map sample)
    { best := none, bestScore := none } rfl (by intro c hc; cases hc)
  have hres : optimizeSynthetic pp (predictSaleProba e sm) "max_price" nSamples minProb
      targetPrice targetProb fc fcl sample =
      ((((List.range (max 50 (min 5000 nSamples)).toNat)).map sample).foldl
        (optStep pp (predictSaleProba e sm) "max_price" minProb targetPrice targetProb fc fcl)
        { best := none, bestScore := none }).best := rfl
  have hmem : (∃ tr ∈ ((List.range (max 50 (min 5000 nSamples)).toNat)).map sample,
      minProb ≤ predictSaleProba e sm (trialInput tr fc fcl)) ↔
      (∃ i < (max 50 (min 5000 nSamples)).toNat,
        minProb ≤ predictSaleProba e sm (trialInput (sample i) fc fcl)) := by
    constructor
    · rintro ⟨tr, htr, hle⟩
      rcases List.mem_map.mp htr with ⟨i, hi, rfl⟩
      exact ⟨i, List.mem_range.mp hi, hle⟩
    · rintro ⟨i, hi, hle⟩
      exact ⟨sample i, List.mem_map.mpr ⟨i, List.mem_range.mpr hi, rfl⟩, hle⟩
  have hiff : (∃ c, optimizeSynthetic pp (predictSaleProba e sm) "max_price" nSamples minProb
      targetPrice targetProb fc fcl sample = some c) ↔
      (∃ i < (max 50 (min 5000 nSamples)).toNat,
        minProb ≤ predictSaleProba e sm (trialInput (sample i) fc fcl)) := by
    rw [hres, ← Option.isSome_iff_exists, h1, ← hmem]
    simp
  refine ⟨hiff, ?_, ?_, ?_⟩
  · intro c hc
    exact h2 c (by rw [hres] at hc; exact hc)
  · intro h0
    rw [hiff]
    refine ⟨0, ?_, ?_⟩
    · omega
    · rw [h0]
      exact clamp01_nonneg _
  · intro h101
    have hno : ¬ ∃ i < (max 50 (min 5000 nSamples)).toNat,
        minProb ≤ predictSaleProba e sm (trialInput (sample i) fc fcl) := by
      rintro ⟨i, _, hle⟩
      have hub := clamp01_le_one (sigmoid e (dotFV
        (buildFeatureVector (trialInput (sample i) fc fcl) sm) sm.beta))
      rw [h101] at hle
      have : (101 : ℚ) / 100 ≤ 1 := le_trans hle hub
      norm_num at this
    rw [← hiff] at hno
    rcases hopt : optimizeSynthetic pp (predictSaleProba e sm) "max_price" nSamples minProb
        targetPrice targetProb fc fcl sample with _ | c
    · rfl
    · exact absurd ⟨c, hopt⟩ hno

/-- C3 witness: with min_prob = 0 and a concrete model the optimizer
returns a candidate. -/
theorem optimizer_max_price_feasibility_witness :
    ∃ c, optimizeSynthetic (fun _ => 7) (predictSaleProba (fun _ => 1) demoModel)
      "max_price" 100 0 5000 (4/5) "G" "VS1"
      (fun _ => { carat := 1, viewings := 2, price_index := 3 }) = some c :=
  (optimizer_max_price_feasibility (fun _ => 7) (fun _ => 1) demoModel 100 0 5000 (4/5)
    "G" "VS1" (fun _ => { carat := 1, viewings := 2, price_index := 3 })).2.2.1 rfl

/-! ## C5 -/

theorem sum_div_total (l : List ℚ) (h : ∀ a ∈ l, 0 ≤ a) (hex : ∃ a ∈ l, a ≠ 0) :
    (l.map (fun v => v / (if l.sum = 0 then 1 else l.sum))).sum = 1 := by
  have hpos : 0 < l.sum := by
    apply qsum_pos l h
    rcases hex with ⟨a, ha, hne⟩
    exact ⟨a, ha, lt_of_le_of_ne (h a ha) (Ne.symm hne)⟩
  rw [if_neg (ne_of_gt hpos), qsum_div]
  exact div_self (ne_of_gt hpos)

theorem map_snd_div (pairs : List (String × ℚ)) (t : ℚ) :
    ((pairs.map (fun p => (p.1, p.2 / t))).map (fun p => p.2)).sum =
      ((pairs.map (fun p => p.2)).map (fun v => v / t)).sum := by
  rw [List.map_map, List.map_map]
  rfl

theorem total_pos (l : List ℚ) (h : ∀ a ∈ l, 0 ≤ a) :
    0 < (if l.sum = 0 then 1 else l.sum) := by
  by_cases hz : l.sum = 0
  · rw [if_pos hz]
    norm_num
  · rw [if_neg hz]
    exact lt_of_le_of_ne (qsum_nonneg l h) (Ne.symm hz)

theorem strip_of_no_helper (l : List (String × ℚ))
    (h : ∀ p ∈ l, isHelperKey p.1 = false) (b1 b2 : ℚ) :
    stripHelperKeys (l ++ [("__baseline_r2", b1), ("__baseline_mae", b2)]) = l := by
  unfold stripHelperKeys
  rw [List.filter_append]
  have h1 : l.filter (fun p => !(isHelperKey p.1)) = l := by
    apply List.filter_eq_self.mpr
    intro p hp
    simp [h p hp]
  have h2 : ([(("__baseline_r2" : String), b1), (("__baseline_mae" : String), b2)]).filter
      (fun p => !(isHelperKey p.1)) = [] := by
    have k1 : isHelperKey "__baseline_r2" = true := by decide
    have k2 : isHelperKey "__baseline_mae" = true := by decide
    simp [List.filter, k1, k2]
  rw [h1, h2, List.append_nil]

theorem permRaw_nonneg (pred : List (List ℚ) → List ℚ) (shuffleCol : ℕ → List ℚ → List ℚ)
    (Xs : List (List ℚ)) (ys : List ℚ) (names : List String) :
    ∀ p ∈ permRawImportances pred shuffleCol Xs ys names, 0 ≤ p.2 := by
  intro p hp
  unfold permRawImportances at hp
  rcases List.mem_map.mp hp with ⟨j, _, rfl⟩
  exact le_max_left 0 _

theorem normPairs_mem (names : List String) (beta : List ℚ) (p : String × ℚ) :
    p ∈ (List.range names.length).filterMap (fun i =>
      if names.getD i "" = "intercept" then none
      else some (names.getD i "", |beta.getD i 0|)) ↔
    ∃ i < names.length, names.getD i "" ≠ "intercept" ∧
      p = (names.getD i "", |beta.getD i 0|) := by
  rw [List.mem_filterMap]
  constructor
  · rintro ⟨i, hi, heq⟩
    by_cases hname : names.getD i "" = "intercept"
    · rw [if_pos hname] at heq
      cases heq
    · rw [if_neg hname] at heq
      exact ⟨i, List.mem_range.mp hi, hname, (Option.some_inj.mp heq).symm⟩
  · rintro ⟨i, hi, hname, rfl⟩
    refine ⟨i, List.mem_range.mpr hi, ?_⟩
    rw [if_neg hname]

/-- C5: every importance map reaching the public interface has only
non-negative values; the values sum to 1 whenever some feature carries
non-zero raw weight (non-zero non-intercept coefficient on the linear
path, non-zero permutation delta on the ensemble path), and an all-zero
raw weighting yields the all-zero map (the normalizer divides by 1
instead of 0).  On the ensemble path the statement is about the map
after the __baseline debug keys are stripped, which is what
getUSDiamondsImportance returns; the feature-name hypotheses state that
the trained feature names cover the columns and never start with two
underscores, as the encoder-built names do. -/
theorem importance_map_contract :
    (∀ (names : List String) (beta : List ℚ),
      (∀ p ∈ normalizeImportance names beta, 0 ≤ p.2) ∧
      ((∃ i < names.length, names.getD i "" ≠ "intercept" ∧ beta.getD i 0 ≠ 0) →
        ((normalizeImportance names beta).map (fun p => p.2)).sum = 1) ∧
      ((∀ i < names.length, names.getD i "" = "intercept" ∨ beta.getD i 0 = 0) →
        ∀ p ∈ normalizeImportance names beta, p.2 = 0)) ∧
    (∀ (pred : List (List ℚ) → List ℚ) (shuffleCol : ℕ → List ℚ → List ℚ)
       (X : List (List ℚ)) (y : List ℚ) (names : List String) (maxSamples : ℕ),
      (∀ p ∈ rfImportancePublic pred shuffleCol X y names maxSamples, 0 ≤ p.2) ∧
      (((sampleRows ([] : List ℚ) X maxSamples).headD []).length ≤ names.length →
       (∀ nm ∈ names, isHelperKey nm = false) →
       (∃ p ∈ permRawImportances pred shuffleCol (sampleRows [] X maxSamples)
            (sampleRows 0 y maxSamples) names, p.2 ≠ 0) →
        ((rfImportancePublic pred shuffleCol X y names maxSamples).map
          (fun p => p.2)).sum = 1) ∧
      ((∀ p ∈ permRawImportances pred shuffleCol (sampleRows [] X maxSamples)
          (sampleRows 0 y maxSamples) names, p.2 = 0) →
        ∀ p ∈ rfImportancePublic pred shuffleCol X y names maxSamples, p.2 = 0)) := by
  constructor
  · intro names beta
    have hvals : ∀ v ∈ ((List.range names.length).filterMap (fun i =>
        if names.getD i "" = "intercept" then none
        else some (names.getD i "", |beta.getD i 0|))).map (fun p => p.2), 0 ≤ v := by
      intro v hv
      rcases List.mem_map.mp hv with ⟨p, hp, rfl⟩
      rcases (normPairs_mem names beta p).mp hp with ⟨i, _, _, rfl⟩
      exact abs_nonneg _
    refine ⟨?_, ?_, ?_⟩
    · intro p hp
      rcases List.mem_map.mp hp with ⟨q, hq, rfl⟩
      have hq2 : 0 ≤ q.2 := by
        rcases (normPairs_mem names beta q).mp hq with ⟨i, _, _, rfl⟩
        exact abs_nonneg _
      exact div_nonneg hq2 (le_of_lt (total_pos _ hvals))
    · rintro ⟨i, hi, hname, hbne⟩
      unfold normalizeImportance
      rw [map_snd_div]
      apply sum_div_total _ hvals
      refine ⟨|beta.getD i 0|, ?_, abs_ne_zero.mpr hbne⟩
      apply List.mem_map.mpr
      refine ⟨(names.getD i "", |beta.getD i 0|), ?_, rfl⟩
      exact (normPairs_mem names beta _).mpr ⟨i, hi, hname, rfl⟩
    · intro hall p hp
      rcases List.mem_map.mp hp with ⟨q, hq, rfl⟩
      rcases (normPairs_mem names beta q).mp hq with ⟨i, hi, hname, rfl⟩
      rcases hall i hi with h | h
      · exact absurd h hname
      · have habs : |beta.getD i 0| = 0 := by rw [h]; simp
        show |beta.getD i 0| / _ = 0
        rw [habs, zero_div]
  · intro pred shuffleCol X y names maxSamples
    have hraw := permRaw_nonneg pred shuffleCol (sampleRows [] X maxSamples)
      (sampleRows 0 y maxSamples) names
    have hrawvals : ∀ v ∈ (permRawImportances pred shuffleCol (sampleRows [] X maxSamples)
        (sampleRows 0 y maxSamples) names).map (fun p => p.2), 0 ≤ v := by
      intro v hv
      rcases List.mem_map.mp hv with ⟨p, hp, rfl⟩
      exact hraw p hp
    refine ⟨?_, ?_, ?_⟩
    · intro p hp
      simp only [rfImportancePublic, permutationImportanceRF, stripHelperKeys] at hp
      rcases List.mem_filter.mp hp with ⟨hmem, hpred⟩
      rcases List.mem_append.mp hmem with hmem | hmem
      · rcases List.mem_map.mp hmem with ⟨q, hq, rfl⟩
        exact div_nonneg (hraw q hq) (le_of_lt (total_pos _ hrawvals))
      · rcases List.mem_cons.mp hmem with rfl | hmem
        · have hk : isHelperKey "__baseline_r2" = true := by decide
          simp [hk] at hpred
        · rcases List.mem_cons.mp hmem with rfl | hmem
          · have hk : isHelperKey "__baseline_mae" = true := by decide
            simp [hk] at hpred
          · cases hmem
    · intro hlen hnames hex
      have hkeys : ∀ p ∈ (permRawImportances pred shuffleCol (sampleRows [] X maxSamples)
          (sampleRows 0 y maxSamples) names).map
            (fun p => (p.1, p.2 / (if ((permRawImportances pred shuffleCol
              (sampleRows [] X maxSamples) (sampleRows 0 y maxSamples) names).map
                (fun p => p.2)).sum = 0 then 1
              else ((permRawImportances pred shuffleCol (sampleRows [] X maxSamples)
                (sampleRows 0 y maxSamples) names).map (fun p => p.2)).sum))),
          isHelperKey p.1 = false := by
        intro p hp
        rcases List.mem_map.mp hp with ⟨q, hq, rfl⟩
        unfold permRawImportances at hq
        rcases List.mem_map.mp hq with ⟨j, hj, rfl⟩
        show isHelperKey (names.getD j ("x" ++ toString j)) = false
        rw [List.getD_eq_getElem names _ (lt_of_lt_of_le (List.mem_range.mp hj) hlen)]
        exact hnames _ (List.getElem_mem _)
      simp only [rfImportancePublic, permutationImportanceRF]
      rw [strip_of_no_helper _ hkeys, map_snd_div]
      apply sum_div_total _ hrawvals
      rcases hex with ⟨p, hp, hne⟩
      exact ⟨p.2, List.mem_map.mpr ⟨p, hp, rfl⟩, hne⟩
    · intro hall p hp
      simp only [rfImportancePublic, permutationImportanceRF, stripHelperKeys] at hp
      rcases List.mem_filter.mp hp with ⟨hmem, hpred⟩
      rcases List.mem_append.mp hmem with hmem | hmem
      · rcases List.mem_map.mp hmem with ⟨q, hq, rfl⟩
        show q.2 / _ = 0
        rw [hall q hq, zero_div]
      · rcases List.mem_cons.mp hmem with rfl | hmem
        · have hk : isHelperKey "__baseline_r2" = true := by decide
          simp [hk] at hpred
        · rcases List.mem_cons.mp hmem with rfl | hmem
          · have hk : isHelperKey "__baseline_mae" = true := by decide
            simp [hk] at hpred
          · cases hmem

/-- C5 witness: both normalization paths evaluated on concrete data. -/
theorem importance_map_contract_witness :
    ((normalizeImportance ["intercept", "carat"] [5, 3]).map (fun p => p.2)).sum = 1 ∧
    ((rfImportancePublic (fun rows => rows.map (fun r => r.getD 0 0)) (fun _ _ => [5])
      [[(1 : ℚ)]] [(0 : ℚ)] ["a"] 5).map (fun p => p.2)).sum = 1 := by
  constructor
  · apply (importance_map_contract.1 ["intercept", "carat"] [5, 3]).2.1
    exact ⟨1, by norm_num, by decide, by norm_num⟩
  · have hsX : sampleRows ([] : List ℚ) [[(1 : ℚ)]] 5 = [[1]] := rfl
    have hsY : sampleRows (0 : ℚ) [(0 : ℚ)] 5 = [0] := rfl
    have hperm : permRawImportances (fun rows => rows.map (fun r => r.getD 0 0))
        (fun _ _ => [5]) [[(1 : ℚ)]] [(0 : ℚ)] ["a"] = [("a", 24)] := by
      have hr1 : List.range 1 = [0] := rfl
      norm_num [permRawImportances, mseOf, setColumn, getColumn, hr1]
    apply (importance_map_contract.2 (fun rows => rows.map (fun r => r.getD 0 0))
      (fun _ _ => [5]) [[(1 : ℚ)]] [(0 : ℚ)] ["a"] 5).2.1
    · rw [hsX]
      norm_num
    · intro nm hnm
      rcases List.mem_cons.mp hnm with rfl | hnm
      · decide
      · cases hnm
    · rw [hsX, hsY, hperm]
      refine ⟨(("a" : String), (24 : ℚ)), by simp, by norm_num⟩

/-! ## C1: correctness of solve and ridgeFit -/

theorem matVecMulF_eq_mulVec {n m : ℕ} (A : Fin m → Fin n → ℚ) (v : Fin n → ℚ) :
    matVecMulF A v = Matrix.mulVec (Matrix.of A) v := rfl

theorem matVecMulF_add {n m : ℕ} (A : Fin m → Fin n → ℚ) (u v : Fin n → ℚ) :
    matVecMulF A (u + v) = matVecMulF A u + matVecMulF A v := by
  funext r
  simp [matVecMulF, mul_add, Finset.sum_add_distrib]

theorem det_ne_zero_unique_sol {n : ℕ} (A : Fin n → Fin n → ℚ) (b : Fin n → ℚ)
    (hdet : (Matrix.of A).det ≠ 0) : ∃! u, matVecMulF A u = b := by
  have hu : IsUnit (Matrix.of A).det := isUnit_iff_ne_zero.mpr hdet
  refine ⟨Matrix.mulVec (Matrix.of A)⁻¹ b, ?_, ?_⟩
  · show matVecMulF A (Matrix.mulVec (Matrix.of A)⁻¹ b) = b
    rw [matVecMulF_eq_mulVec, Matrix.mulVec_mulVec, Matrix.mul_nonsing_inv _ hu,
      Matrix.one_mulVec]
  · intro v hv
    rw [matVecMulF_eq_mulVec] at hv
    calc v = Matrix.mulVec ((Matrix.of A)⁻¹ * Matrix.of A) v := by
            rw [Matrix.nonsing_inv_mul _ hu, Matrix.one_mulVec]
    _ = Matrix.mulVec (Matrix.of A)⁻¹ b := by
            rw [← Matrix.mulVec_mulVec, hv]

theorem findPivot_fold_aux {n : ℕ} (M : Fin n → Fin n → ℚ) (col : Fin n)
    (l : List (Fin n)) (p0 : Fin n) (hp0 : col ≤ p0) :
    col ≤ l.foldl (fun p r => if col < r ∧ |M p col| < |M r col| then r else p) p0 ∧
    |M p0 col| ≤ |M (l.foldl
      (fun p r => if col < r ∧ |M p col| < |M r col| then r else p) p0) col| ∧
    ∀ r ∈ l, col < r → |M r col| ≤ |M (l.foldl
      (fun p r => if col < r ∧ |M p col| < |M r col| then r else p) p0) col| := by
  induction l generalizing p0 with
  | nil =>
    exact ⟨hp0, le_refl _, by simp⟩
  | cons a t ih =>
    rw [List.foldl_cons]
    by_cases h : col < a ∧ |M p0 col| < |M a col|
    · rw [if_pos h]
      obtain ⟨ih1, ih2, ih3⟩ := ih a (le_of_lt h.1)
      refine ⟨ih1, le_trans (le_of_lt h.2) ih2, ?_⟩
      intro r hr hcr
      rcases List.mem_cons.mp hr with rfl | hrt
      · exact ih2
      · exact ih3 r hrt hcr
    · rw [if_neg h]
      obtain ⟨ih1, ih2, ih3⟩ := ih p0 hp0
      refine ⟨ih1, ih2, ?_⟩
      intro r hr hcr
      rcases List.mem_cons.mp hr with rfl | hrt
      · have hna : ¬ |M p0 col| < |M r col| := fun hlt => h ⟨hcr, hlt⟩
        exact le_trans (not_lt.mp hna) ih2
      · exact ih3 r hrt hcr

theorem findPivot_spec {n : ℕ} (M : Fin n → Fin n → ℚ) (col : Fin n) :
    col ≤ findPivot M col ∧
    ∀ r, col ≤ r → |M r col| ≤ |M (findPivot M col) col| := by
  obtain ⟨h1, h2, h3⟩ := findPivot_fold_aux M col (List.finRange n) col (le_refl col)
  refine ⟨h1, ?_⟩
  intro r hr
  rcases eq_or_lt_of_le hr with rfl | hlt
  · exact h2
  · exact h3 r (List.mem_finRange r) hlt

theorem swapState_sol {n : ℕ} (s : GEState n) (i j : Fin n) (u : Fin n → ℚ) :
    matVecMulF (swapState s i j).M u = (swapState s i j).x ↔
      matVecMulF s.M u = s.x := by
  rw [funext_iff, funext_iff]
  constructor
  · intro h r
    have h2 := h (Equiv.swap i j r)
    have hself : Equiv.swap i j (Equiv.swap i j r) = r := Equiv.swap_apply_self i j r
    show (fun i => ∑ c, s.M i c * u c) r = s.x r
    have h3 : (fun rr => ∑ c, s.M (Equiv.swap i j rr) c * u c) (Equiv.swap i j r) =
        s.x (Equiv.swap i j (Equiv.swap i j r)) := h2
    simpa [hself] using h3
  · intro h r
    exact h (Equiv.swap i j r)

theorem pivot_col_ne_zero {n : ℕ} (A : Fin n → Fin n → ℚ) (b : Fin n → ℚ) (k : ℕ)
    (s : GEState n) (col : Fin n) (hcol : (col : ℕ) = k)
    (hinv : GEInv A b k s) (hexu : ∃! u, matVecMulF A u = b)
    (hall : ∀ r, col ≤ r → s.M r col = 0) : False := by
  obtain ⟨β, hβ, huniq⟩ := hexu
  have hMβ : matVecMulF s.M β = s.x := (hinv.1 β).mpr hβ
  set v : Fin n → ℚ := fun c =>
    (if c = col then (-1 : ℚ) else 0) + (if (c : ℕ) < k then s.M c col else 0) with hv
  have hMv : matVecMulF s.M v = 0 := by
    funext r
    show (∑ c, s.M r c * v c) = 0
    have hsplit : ∀ c : Fin n, s.M r c * v c =
        s.M r c * (if c = col then (-1 : ℚ) else 0) +
        s.M r c * (if (c : ℕ) < k then s.M c col else 0) := by
      intro c
      simp only [hv]
      ring
    rw [Finset.sum_congr rfl (fun c _ => hsplit c), Finset.sum_add_distrib]
    have e1 : (∑ c, s.M r c * (if c = col then (-1 : ℚ) else 0)) = -(s.M r col) := by
      rw [Finset.sum_congr rfl (fun c _ => by
        rw [mul_ite, mul_neg_one, mul_zero])]
      rw [Finset.sum_ite_eq' Finset.univ col (fun c => -(s.M r c))]
      simp
    rcases lt_or_le (r : ℕ) k with hr | hr
    · have e2 : (∑ c, s.M r c * (if (c : ℕ) < k then s.M c col else 0)) = s.M r col := by
        have hterm : ∀ c : Fin n, s.M r c * (if (c : ℕ) < k then s.M c col else 0) =
            if c = r then s.M c col else 0 := by
          intro c
          by_cases hck : (c : ℕ) < k
          · rw [if_pos hck, hinv.2 r c hck]
            by_cases hrc : r = c
            · rw [if_pos hrc, one_mul, if_pos hrc.symm]
            · rw [if_neg hrc, zero_mul, if_neg (fun hcr => hrc hcr.symm)]
          · rw [if_neg hck, mul_zero]
            have hcr : ¬ c = r := fun hceq => hck (by rw [hceq]; exact hr)
            rw [if_neg hcr]
        rw [Finset.sum_congr rfl (fun c _ => hterm c)]
        rw [Finset.sum_ite_eq' Finset.univ r (fun c => s.M c col)]
        simp
      rw [e1, e2]
      ring
    · have hr0 : s.M r col = 0 := by
        apply hall r
        rw [Fin.le_def, hcol]
        exact hr
      have e2 : (∑ c, s.M r c * (if (c : ℕ) < k then s.M c col else 0)) = 0 := by
        apply Finset.sum_eq_zero
        intro c _
        by_cases hck : (c : ℕ) < k
        · rw [if_pos hck, hinv.2 r c hck,
            if_neg (fun hrc => absurd hr (by rw [hrc]; omega)), zero_mul]
        · rw [if_neg hck, mul_zero]
      rw [e1, e2, hr0]
      ring
  have hvcol : v col = -1 := by
    simp only [hv]
    simp [hcol]
  have hβv : matVecMulF s.M (β + v) = s.x := by
    rw [matVecMulF_add, hMβ, hMv, add_zero]
  have heq : β + v = β := huniq _ ((hinv.1 _).mp hβv)
  have hveq : v = 0 := by
    have h0 : β + v = β + 0 := by rw [heq, add_zero]
    exact add_left_cancel h0
  rw [hveq] at hvcol
  simp at hvcol

theorem pivotSwap_inv {n : ℕ} (A : Fin n → Fin n → ℚ) (b : Fin n → ℚ) (k : ℕ)
    (s : GEState n) (col : Fin n) (hcol : (col : ℕ) = k) (hinv : GEInv A b k s) :
    GEInv A b k (pivotSwap s col) ∧
    (∀ r, col ≤ r → |(pivotSwap s col).M r col| ≤ |(pivotSwap s col).M col col|) := by
  obtain ⟨hple, hpmax⟩ := findPivot_spec s.M col
  unfold pivotSwap
  by_cases hp : findPivot s.M col = col
  · rw [if_pos hp]
    refine ⟨hinv, ?_⟩
    intro r hr
    have hb := hpmax r hr
    rwa [hp] at hb
  · rw [if_neg hp]
    have hkp : k ≤ (findPivot s.M col : ℕ) := by
      have h2 := hple
      rw [Fin.le_def, hcol] at h2
      exact h2
    constructor
    · constructor
      · intro u
        rw [swapState_sol]
        exact hinv.1 u
      · intro r c hck
        show s.M (Equiv.swap col (findPivot s.M col) r) c = if r = c then 1 else 0
        rw [hinv.2 (Equiv.swap col (findPivot s.M col) r) c hck]
        have hc_ne_col : c ≠ col := by
          intro hceq
          have hck2 : (c : ℕ) < k := hck
          rw [hceq, hcol] at hck2
          omega
        have hc_ne_p : c ≠ findPivot s.M col := by
          intro hceq
          have hck2 : (c : ℕ) < k := hck
          rw [hceq] at hck2
          omega
        have hσc : Equiv.swap col (findPivot s.M col) c = c :=
          Equiv.swap_apply_of_ne_of_ne hc_ne_col hc_ne_p
        have hiff : Equiv.swap col (findPivot s.M col) r = c ↔ r = c := by
          constructor
          · intro heq
            have h3 := congrArg (Equiv.swap col (findPivot s.M col)) heq
            rwa [Equiv.swap_apply_self, hσc] at h3
          · intro heq
            rw [heq, hσc]
        by_cases hrc : r = c
        · rw [if_pos (hiff.mpr hrc), if_pos hrc]
        · rw [if_neg (fun h => hrc (hiff.mp h)), if_neg hrc]
    · intro r hr
      show |s.M (Equiv.swap col (findPivot s.M col) r) col| ≤
        |s.M (Equiv.swap col (findPivot s.M col) col) col|
      rw [Equiv.swap_apply_left]
      apply hpmax
      by_cases hr1 : r = col
      · rw [hr1, Equiv.swap_apply_left]
        exact hple
      · by_cases hr2 : r = findPivot s.M col
        · rw [hr2, Equiv.swap_apply_right]
        · rw [Equiv.swap_apply_of_ne_of_ne hr1 hr2]
          exact hr

theorem normalizeRow_inv {n : ℕ} (A : Fin n → Fin n → ℚ) (b : Fin n → ℚ) (k : ℕ)
    (s : GEState n) (col : Fin n) (hcol : (col : ℕ) = k) (hinv : GEInv A b k s)
    (d : ℚ) (hd : d ≠ 0) (hdval : d = s.M col col) :
    GEInv A b k (normalizeRow s col d) ∧ (normalizeRow s col d).M col col = 1 := by
  have hrowzero : ∀ c : Fin n, (c : ℕ) < k → s.M col c = 0 := by
    intro c hck
    rw [hinv.2 col c hck, if_neg]
    intro hceq
    rw [hceq] at hcol
    omega
  have hs2Mcol : ∀ c, (normalizeRow s col d).M col c = s.M col c / d := by
    intro c
    show (if col = col ∧ col ≤ c then s.M col c / d else s.M col c) = s.M col c / d
    by_cases hc : col ≤ c
    · rw [if_pos ⟨rfl, hc⟩]
    · rw [if_neg (fun h => hc h.2)]
      have hck : (c : ℕ) < k := by
        rw [← hcol]
        exact Fin.lt_def.mp (not_le.mp hc)
      rw [hrowzero c hck, zero_div]
  have hs2Mother : ∀ r c, r ≠ col → (normalizeRow s col d).M r c = s.M r c := by
    intro r c hr
    exact if_neg (fun h => hr h.1)
  have hs2xo : ∀ r, r ≠ col → (normalizeRow s col d).x r = s.x r := by
    intro r hr
    exact if_neg hr
  refine ⟨⟨?_, ?_⟩, ?_⟩
  · intro u
    have hsys : (matVecMulF (normalizeRow s col d).M u = (normalizeRow s col d).x) ↔
        (matVecMulF s.M u = s.x) := by
      rw [funext_iff, funext_iff]
      apply forall_congr'
      intro r
      by_cases hr : r = col
      · subst hr
        show (∑ c, (normalizeRow s r d).M r c * u c) = (normalizeRow s r d).x r ↔
          (∑ c, s.M r c * u c) = s.x r
        have hL : (∑ c, (normalizeRow s r d).M r c * u c) =
            (∑ c, s.M r c * u c) / d := by
          rw [Finset.sum_congr rfl (fun c _ => by rw [hs2Mcol c])]
          rw [Finset.sum_congr rfl (fun c _ => div_mul_eq_mul_div (s.M r c) d (u c))]
          rw [← Finset.sum_div]
        have hx : (normalizeRow s r d).x r = s.x r / d := if_pos rfl
        rw [hL, hx]
        constructor
        · intro h
          have h2 := congrArg (fun z => z * d) h
          simpa [div_mul_cancel₀ _ hd] using h2
        · intro h
          rw [h]
      · show (∑ c, (normalizeRow s col d).M r c * u c) = (normalizeRow s col d).x r ↔
          (∑ c, s.M r c * u c) = s.x r
        rw [Finset.sum_congr rfl (fun c _ => by rw [hs2Mother r c hr]), hs2xo r hr]
    exact hsys.trans (hinv.1 u)
  · intro r c hck
    by_cases hr : r = col
    · subst hr
      rw [hs2Mcol c, hrowzero c hck, zero_div, if_neg]
      intro hceq
      rw [← hceq] at hck
      omega
    · rw [hs2Mother r c hr]
      exact hinv.2 r c hck
  · rw [hs2Mcol col, ← hdval, div_self hd]

theorem eliminate_inv {n : ℕ} (A : Fin n → Fin n → ℚ) (b : Fin n → ℚ) (k : ℕ)
    (s : GEState n) (col : Fin n) (hcol : (col : ℕ) = k) (hinv : GEInv A b k s)
    (hpiv : s.M col col = 1) : GEInv A b (k + 1) (eliminate s col) := by
  have hrowzero : ∀ c : Fin n, (c : ℕ) < k → s.M col c = 0 := by
    intro c hck
    rw [hinv.2 col c hck, if_neg]
    intro hceq
    rw [hceq] at hcol
    omega
  have hM : ∀ r c, r ≠ col →
      (eliminate s col).M r c = s.M r c - s.M r col * s.M col c := by
    intro r c hr
    show (if r ≠ col ∧ s.M r col ≠ 0 ∧ col ≤ c
      then s.M r c - s.M r col * s.M col c else s.M r c) =
      s.M r c - s.M r col * s.M col c
    by_cases hf : s.M r col = 0
    · rw [if_neg (fun h => h.2.1 hf), hf, zero_mul, sub_zero]
    · by_cases hc : col ≤ c
      · rw [if_pos ⟨hr, hf, hc⟩]
      · rw [if_neg (fun h => hc h.2.2)]
        have hck : (c : ℕ) < k := by
          rw [← hcol]
          exact Fin.lt_def.mp (not_le.mp hc)
        rw [hrowzero c hck, mul_zero, sub_zero]
  have hMcol : ∀ c, (eliminate s col).M col c = s.M col c := by
    intro c
    exact if_neg (fun h => h.1 rfl)
  have hx : ∀ r, r ≠ col → (eliminate s col).x r = s.x r - s.M r col * s.x col := by
    intro r hr
    show (if r ≠ col ∧ s.M r col ≠ 0 then s.x r - s.M r col * s.x col else s.x r) =
      s.x r - s.M r col * s.x col
    by_cases hf : s.M r col = 0
    · rw [if_neg (fun h => h.2 hf), hf, zero_mul, sub_zero]
    · rw [if_pos ⟨hr, hf⟩]
  have hxcol : (eliminate s col).x col = s.x col := if_neg (fun h => h.1 rfl)
  constructor
  · intro u
    refine Iff.trans ?_ (hinv.1 u)
    rw [funext_iff, funext_iff]
    constructor
    · intro h r
      have hcS : (∑ c, s.M col c * u c) = s.x col := by
        have h2 : (∑ c, (eliminate s col).M col c * u c) = (eliminate s col).x col :=
          h col
        rw [Finset.sum_congr rfl (fun c _ => by rw [hMcol c]), hxcol] at h2
        exact h2
      by_cases hr : r = col
      · subst hr
        exact hcS
      · have h2 : (∑ c, (eliminate s col).M r c * u c) = (eliminate s col).x r := h r
        rw [Finset.sum_congr rfl (fun c _ => by rw [hM r c hr]), hx r hr] at h2
        have hexp : (∑ c, (s.M r c - s.M r col * s.M col c) * u c) =
            (∑ c, s.M r c * u c) - s.M r col * (∑ c, s.M col c * u c) := by
          rw [Finset.mul_sum, ← Finset.sum_sub_distrib]
          exact Finset.sum_congr rfl (fun c _ => by ring)
        rw [hexp, hcS] at h2
        show (∑ c, s.M r c * u c) = s.x r
        linarith
    · intro h r
      have hcS : (∑ c, s.M col c * u c) = s.x col := h col
      by_cases hr : r = col
      · subst hr
        show (∑ c, (eliminate s r).M r c * u c) = (eliminate s r).x r
        rw [Finset.sum_congr rfl (fun c _ => by rw [hMcol c]), hxcol]
        exact hcS
      · show (∑ c, (eliminate s col).M r c * u c) = (eliminate s col).x r
        rw [Finset.sum_congr rfl (fun c _ => by rw [hM r c hr]), hx r hr]
        have hexp : (∑ c, (s.M r c - s.M r col * s.M col c) * u c) =
            (∑ c, s.M r c * u c) - s.M r col * (∑ c, s.M col c * u c) := by
          rw [Finset.mul_sum, ← Finset.sum_sub_distrib]
          exact Finset.sum_congr rfl (fun c _ => by ring)
        rw [hexp, hcS]
        have hrS : (∑ c, s.M r c * u c) = s.x r := h r
        rw [hrS]
  · intro r c hck1
    rcases Nat.lt_succ_iff_lt_or_eq.mp hck1 with hck | hck
    · by_cases hr : r = col
      · subst hr
        rw [hMcol c]
        exact hinv.2 r c hck
      · rw [hM r c hr, hrowzero c hck, mul_zero, sub_zero]
        exact hinv.2 r c hck
    · have hceq : c = col := Fin.ext (by omega)
      subst hceq
      by_cases hr : r = c
      · subst hr
        rw [hMcol r, hpiv, if_pos rfl]
      · rw [hM r c hr, hpiv, mul_one, sub_self, if_neg hr]

theorem geStep_inv {n : ℕ} (A : Fin n → Fin n → ℚ) (b : Fin n → ℚ) (k : ℕ)
    (s : GEState n) (col : Fin n) (hcol : (col : ℕ) = k) (hinv : GEInv A b k s)
    (hexu : ∃! u, matVecMulF A u = b) : GEInv A b (k + 1) (geStep s col) := by
  obtain ⟨hinv1, hbound⟩ := pivotSwap_inv A b k s col hcol hinv
  have hnz : (pivotSwap s col).M col col ≠ 0 := by
    intro h0
    apply pivot_col_ne_zero A b k (pivotSwap s col) col hcol hinv1 hexu
    intro r hr
    have hb := hbound r hr
    rw [h0] at hb
    have hb2 : |(pivotSwap s col).M r col| ≤ 0 := by simpa using hb
    exact abs_nonpos_iff.mp hb2
  show GEInv A b (k + 1) (eliminate (normalizeRow (pivotSwap s col) col
    (if (pivotSwap s col).M col col = 0 then epsPivot
     else (pivotSwap s col).M col col)) col)
  rw [if_neg hnz]
  obtain ⟨hinv2, hpiv2⟩ := normalizeRow_inv A b k (pivotSwap s col) col hcol hinv1
    ((pivotSwap s col).M col col) hnz rfl
  exact eliminate_inv A b k _ col hcol hinv2 hpiv2

theorem solveSteps_succ {n : ℕ} (A : Fin n → Fin n → ℚ) (b : Fin n → ℚ) (k : ℕ)
    (hk : k < n) :
    solveSteps A b (k + 1) = geStep (solveSteps A b k) ⟨k, hk⟩ := by
  unfold solveSteps
  have hlen : k < (List.finRange n).length := by
    rw [List.length_finRange]
    exact hk
  rw [List.take_succ, List.getElem?_eq_getElem hlen, List.foldl_append]
  simp only [Option.toList_some, List.foldl_cons, List.foldl_nil]
  congr 1
  rw [List.getElem_finRange]
  rfl

theorem solveSteps_inv {n : ℕ} (A : Fin n → Fin n → ℚ) (b : Fin n → ℚ)
    (hexu : ∃! u, matVecMulF A u = b) :
    ∀ k, k ≤ n → GEInv A b k (solveSteps A b k) := by
  intro k
  induction k with
  | zero =>
    intro _
    refine ⟨fun u => Iff.rfl, ?_⟩
    intro r c hc
    exact absurd hc (Nat.not_lt_zero _)
  | succ k ih =>
    intro hk1
    have hk : k < n := hk1
    rw [solveSteps_succ A b k hk]
    exact geStep_inv A b k _ ⟨k, hk⟩ rfl (ih (le_of_lt hk)) hexu

theorem solve_correct {n : ℕ} (A : Fin n → Fin n → ℚ) (b : Fin n → ℚ)
    (hdet : (Matrix.of A).det ≠ 0) : matVecMulF A (solve A b) = b := by
  have hexu := det_ne_zero_unique_sol A b hdet
  have hinv := solveSteps_inv A b hexu n (le_refl n)
  have hsolve : solve A b = (solveSteps A b n).x := by
    unfold solve solveSteps
    rw [List.take_of_length_le (le_of_eq (List.length_finRange n))]
  have hId : matVecMulF (solveSteps A b n).M ((solveSteps A b n).x) =
      (solveSteps A b n).x := by
    funext r
    show (∑ c, (solveSteps A b n).M r c * (solveSteps A b n).x c) =
      (solveSteps A b n).x r
    rw [Finset.sum_congr rfl (fun c _ => by rw [hinv.2 r c c.isLt])]
    simp [ite_mul]
  rw [hsolve]
  exact (hinv.1 _).mp hId

/-- C1: ridgeFit is exactly solve applied to the regularized
normal-equations system transpose(X) * X + lambda on the diagonal and
right-hand side transpose(X) * y, and — over exact arithmetic — whenever
that matrix is nonsingular the returned coefficients satisfy the normal
equations. -/
theorem ridgeFit_normal_equations {m k : ℕ} (X : Fin m → Fin k → ℚ) (y : Fin m → ℚ)
    (lam : ℚ) (hlam : 0 ≤ lam)
    (hdet : (Matrix.of (ridgeMatrix X lam)).det ≠ 0) :
    ridgeFit X y lam = solve (ridgeMatrix X lam) (matVecMulF (transposeF X) y) ∧
    matVecMulF (ridgeMatrix X lam) (ridgeFit X y lam) =
      matVecMulF (transposeF X) y := by
  refine ⟨rfl, ?_⟩
  exact solve_correct _ _ hdet

/-- C1 witness: the 1-by-1 regression with X = [[1]], y = [2] and
lambda = 0 has nonsingular normal matrix, and the fitted coefficients
satisfy the normal equations. -/
theorem ridgeFit_normal_equations_witness :
    (0 : ℚ) ≤ 0 ∧
    (Matrix.of (ridgeMatrix (fun (_ : Fin 1) (_ : Fin 1) => (1 : ℚ)) 0)).det ≠ 0 ∧
    matVecMulF (ridgeMatrix (fun (_ : Fin 1) (_ : Fin 1) => (1 : ℚ)) 0)
      (ridgeFit (fun (_ : Fin 1) (_ : Fin 1) => (1 : ℚ)) (fun _ => 2) 0) =
      matVecMulF (transposeF (fun (_ : Fin 1) (_ : Fin 1) => (1 : ℚ))) (fun _ => 2) := by
  have hdet : (Matrix.of (ridgeMatrix (fun (_ : Fin 1) (_ : Fin 1) => (1 : ℚ)) 0)).det ≠ 0 := by
    rw [Matrix.det_fin_one, Matrix.of_apply]
    norm_num [ridgeMatrix, matMulF, transposeF]
  exact ⟨le_refl 0, hdet,
    (ridgeFit_normal_equations (fun _ _ => 1) (fun _ => 2) 0 (le_refl 0) hdet).2⟩
